import Mathlib

/-!
Verification of the MerkleDB core (radix-style Merkle trie with layered
views, range/change proofs, bounded history, value cache).

The implementation is modelled from the specification: keys are nibble
paths, the trie content is a strictly sorted association list, nodes are
built with path compression and hashed through a canonical encoding, and
the MerkleDB state carries a view arena, a history ring and a value cache.
Digests are computed by an arbitrary hash function passed explicitly, so
every theorem below holds for any choice of digest function.
-/

/-- A path is a sequence of 4-bit nibbles. Modelled from the spec:
"A key is represented as a sequence of 4-bit nibbles." -/
abbrev MPath := List Nat

/-- A value is a byte string. -/
abbrev MVal := List Nat

/-- Modelled from the spec: conversion of a byte key to its nibble path,
two nibbles (high, low) per byte. -/
def newPath (bs : List Nat) : MPath :=
  bs.foldr (fun b acc => b / 16 % 16 :: b % 16 :: acc) []

/-- Lexicographic strict order on paths ("Equality and ordering are
lexicographic on nibbles"). -/
def pathLt : List Nat → List Nat → Bool
  | [], [] => false
  | [], _ :: _ => true
  | _ :: _, [] => false
  | a :: as, b :: bs => if a < b then true else if b < a then false else pathLt as bs

theorem pathLt_irrefl (p : List Nat) : pathLt p p = false := by
  induction p with
  | nil => rfl
  | cons a as ih => simp [pathLt, ih]

theorem pathLt_asymm : ∀ {a b : List Nat}, pathLt a b = true → pathLt b a = false
  | [], [], h => by simp [pathLt] at h
  | [], _ :: _, _ => rfl
  | _ :: _, [], h => by simp [pathLt] at h
  | x :: xs, y :: ys, h => by
    simp only [pathLt] at h ⊢
    rcases Nat.lt_trichotomy x y with hxy | hxy | hxy
    · simp [Nat.lt_asymm hxy, hxy]
    · subst hxy
      simp only [Nat.lt_irrefl, if_false] at h ⊢
      exact pathLt_asymm h
    · simp [hxy, Nat.not_lt.mpr (Nat.le_of_lt hxy)] at h

theorem pathLt_trans : ∀ {a b c : List Nat},
    pathLt a b = true → pathLt b c = true → pathLt a c = true
  | [], [], _, h, _ => by simp [pathLt] at h
  | [], _ :: _, [], _, h => by simp [pathLt] at h
  | [], _ :: _, _ :: _, _, _ => rfl
  | _ :: _, [], _, h, _ => by simp [pathLt] at h
  | _ :: _, _ :: _, [], _, h => by simp [pathLt] at h
  | x :: xs, y :: ys, z :: zs, h1, h2 => by
    simp only [pathLt] at h1 h2 ⊢
    rcases Nat.lt_trichotomy x y with hxy | hxy | hxy
    · rcases Nat.lt_trichotomy y z with hyz | hyz | hyz
      · simp [Nat.lt_trans hxy hyz]
      · subst hyz; simp [hxy]
      · simp [hyz, Nat.not_lt.mpr (Nat.le_of_lt hyz), Nat.lt_irrefl] at h2
    · subst hxy
      rcases Nat.lt_trichotomy x z with hxz | hxz | hxz
      · simp [hxz]
      · subst hxz
        simp only [Nat.lt_irrefl, if_false] at h1 h2 ⊢
        exact pathLt_trans h1 h2
      · simp [hxz, Nat.not_lt.mpr (Nat.le_of_lt hxz), Nat.lt_irrefl] at h2
    · simp [hxy, Nat.not_lt.mpr (Nat.le_of_lt hxy), Nat.lt_irrefl] at h1

theorem pathLt_connex : ∀ {a b : List Nat},
    pathLt a b = false → pathLt b a = false → a = b
  | [], [], _, _ => rfl
  | [], _ :: _, h, _ => by simp [pathLt] at h
  | _ :: _, [], _, h => by simp [pathLt] at h
  | x :: xs, y :: ys, h1, h2 => by
    simp only [pathLt] at h1 h2
    rcases Nat.lt_trichotomy x y with hxy | hxy | hxy
    · simp [hxy] at h1
    · subst hxy
      simp only [Nat.lt_irrefl, if_false] at h1 h2
      rw [pathLt_connex h1 h2]
    · simp [hxy, Nat.not_lt.mpr (Nat.le_of_lt hxy)] at h2

theorem pathLt_false_cases {a b : List Nat} (h : pathLt a b = false) :
    pathLt b a = true ∨ a = b := by
  cases hba : pathLt b a with
  | true => exact Or.inl rfl
  | false => exact Or.inr (pathLt_connex h hba)

/-- Association lists keyed by paths; the store content, change maps and
caches are all instances. -/
abbrev KList (β : Type) := List (List Nat × β)

/-- First-match lookup in an association list. -/
def lookupK {β : Type} : KList β → List Nat → Option β
  | [], _ => none
  | e :: t, p => if e.1 = p then some e.2 else lookupK t p

/-- Key-ordering relation between entries of an association list. -/
def ltK {β : Type} (x y : List Nat × β) : Prop := pathLt x.1 y.1 = true

instance {β : Type} : DecidablePred (fun xy : (List Nat × β) × (List Nat × β) => ltK xy.1 xy.2) :=
  fun _ => by unfold ltK; infer_instance

instance ltK.decRel {β : Type} (x y : List Nat × β) : Decidable (ltK x y) := by
  unfold ltK; infer_instance

instance {β : Type} : IsTrans (List Nat × β) ltK :=
  ⟨fun _ _ _ h1 h2 => pathLt_trans h1 h2⟩

instance {β : Type} : IsAntisymm (List Nat × β) ltK :=
  ⟨fun _ _ h1 h2 => absurd h2 (by simp [ltK, pathLt_asymm h1])⟩

/-- The canonical store invariant: entries strictly sorted by key. -/
abbrev ssortedK {β : Type} (l : KList β) : Prop := List.Pairwise ltK l

/-- Keys of an association list. -/
abbrev keysK {β : Type} (l : KList β) : List (List Nat) := l.map (·.1)

theorem keysNodup_of_ssortedK {β : Type} {l : KList β} (h : ssortedK l) :
    (keysK l).Nodup := by
  refine (List.pairwise_map).mpr ?_
  refine h.imp (fun {a b} hab he => ?_)
  unfold ltK at hab
  rw [he, pathLt_irrefl] at hab
  exact Bool.noConfusion hab

theorem lookupK_eq_none {β : Type} {l : KList β} {p : List Nat}
    (h : ∀ e ∈ l, e.1 ≠ p) : lookupK l p = none := by
  induction l with
  | nil => rfl
  | cons e t ih =>
    simp only [lookupK]
    rw [if_neg (h e (List.mem_cons_self e t))]
    exact ih (fun e' he' => h e' (List.mem_cons_of_mem _ he'))

theorem lookupK_mem {β : Type} {l : KList β} {p : List Nat} {v : β}
    (h : lookupK l p = some v) : (p, v) ∈ l := by
  induction l with
  | nil => simp [lookupK] at h
  | cons e t ih =>
    simp only [lookupK] at h
    by_cases he : e.1 = p
    · rw [if_pos he] at h
      have hpv : (p, v) = e := by
        rw [← he, ← Option.some.inj h]
      rw [hpv]; exact List.mem_cons_self e t
    · rw [if_neg he] at h
      exact List.mem_cons_of_mem _ (ih h)

theorem lookupK_none_not_mem {β : Type} {l : KList β} {p : List Nat}
    (h : lookupK l p = none) : p ∉ keysK l := by
  induction l with
  | nil => simp [keysK]
  | cons e t ih =>
    simp only [lookupK] at h
    by_cases he : e.1 = p
    · rw [if_pos he] at h; cases h
    · rw [if_neg he] at h
      simp only [keysK, List.map_cons, List.mem_cons]
      rintro (h' | h')
      · exact he h'.symm
      · exact ih h h'

theorem lookupK_of_mem_nodup {β : Type} {l : KList β} {p : List Nat} {v : β}
    (hnd : (keysK l).Nodup) (hmem : (p, v) ∈ l) : lookupK l p = some v := by
  induction l with
  | nil => cases hmem
  | cons e t ih =>
    simp only [keysK, List.map_cons, List.nodup_cons] at hnd
    rcases List.mem_cons.mp hmem with h | h
    · rw [← h]; simp [lookupK]
    · have hne : e.1 ≠ p := by
        intro he
        exact hnd.1 (he ▸ (List.mem_map.mpr ⟨(p, v), h, rfl⟩))
      simp only [lookupK, if_neg hne]
      exact ih hnd.2 h

/-- Lookup in an association list with distinct keys is invariant under
permutation of the entries. -/
theorem lookupK_perm {β : Type} {l m : KList β} (hnd : (keysK l).Nodup)
    (hperm : l.Perm m) (p : List Nat) : lookupK l p = lookupK m p := by
  have hkp : (keysK l).Perm (keysK m) := hperm.map (·.1)
  have hndm : (keysK m).Nodup := hkp.nodup_iff.mp hnd
  cases hl : lookupK l p with
  | some v =>
    exact (lookupK_of_mem_nodup hndm (hperm.mem_iff.mp (lookupK_mem hl))).symm
  | none =>
    cases hm : lookupK m p with
    | some v =>
      have : (p, v) ∈ l := hperm.mem_iff.mpr (lookupK_mem hm)
      have := lookupK_of_mem_nodup hnd this
      rw [hl] at this; cases this
    | none => rfl

/-- Sorted insertion used by the canonicalizing sort. -/
def insK {β : Type} (x : List Nat × β) : KList β → KList β
  | [] => [x]
  | y :: ys => if pathLt y.1 x.1 then y :: insK x ys else x :: y :: ys

/-- Canonicalizing sort of an association list by key. -/
def sortK {β : Type} (l : KList β) : KList β := l.foldr insK []

theorem insK_perm {β : Type} (x : List Nat × β) (l : KList β) :
    (insK x l).Perm (x :: l) := by
  induction l with
  | nil => exact List.Perm.refl _
  | cons y ys ih =>
    simp only [insK]
    by_cases h : pathLt y.1 x.1
    · rw [if_pos h]
      exact ((ih.cons y).trans (List.Perm.swap x y ys))
    · rw [if_neg h]

theorem sortK_perm {β : Type} (l : KList β) : (sortK l).Perm l := by
  induction l with
  | nil => exact List.Perm.refl _
  | cons x xs ih =>
    simp only [sortK, List.foldr_cons]
    exact (insK_perm x (sortK xs)).trans (ih.cons x)

theorem mem_insK {β : Type} {x z : List Nat × β} {l : KList β}
    (h : z ∈ insK x l) : z = x ∨ z ∈ l := by
  have := (insK_perm x l).mem_iff.mp h
  simpa using this

theorem ssortedK_insK {β : Type} {x : List Nat × β} {l : KList β}
    (hs : ssortedK l) (hx : x.1 ∉ keysK l) : ssortedK (insK x l) := by
  induction l with
  | nil => exact List.pairwise_singleton _ _
  | cons y ys ih =>
    obtain ⟨hhead, htail⟩ := List.pairwise_cons.mp hs
    simp only [keysK, List.map_cons, List.mem_cons] at hx
    push_neg at hx
    by_cases h : pathLt y.1 x.1
    · simp only [insK, if_pos h]
      refine List.pairwise_cons.mpr ⟨?_, ?_⟩
      · intro z hz
        rcases mem_insK hz with hz | hz
        · rw [hz]; exact h
        · exact hhead z hz
      · exact ih htail (by simpa [keysK] using hx.2)
    · simp only [insK, if_neg h]
      refine List.pairwise_cons.mpr ⟨?_, ?_⟩
      · intro z hz
        rcases List.mem_cons.mp hz with hz | hz
        · rw [hz]
          rcases pathLt_false_cases (Bool.eq_false_iff.mpr h) with h' | h'
          · exact h'
          · exact absurd h'.symm hx.1
        · have hyz : ltK y z := hhead z hz
          rcases pathLt_false_cases (Bool.eq_false_iff.mpr h) with h' | h'
          · exact pathLt_trans h' hyz
          · exact absurd h'.symm hx.1
      · exact List.pairwise_cons.mpr ⟨hhead, htail⟩

theorem ssortedK_sortK {β : Type} {l : KList β} (hnd : (keysK l).Nodup) :
    ssortedK (sortK l) := by
  induction l with
  | nil => exact List.Pairwise.nil
  | cons x xs ih =>
    simp only [keysK, List.map_cons, List.nodup_cons] at hnd
    simp only [sortK, List.foldr_cons]
    refine ssortedK_insK (ih hnd.2) ?_
    intro hmem
    have : x.1 ∈ keysK xs := by
      have hp : (keysK (sortK xs)).Perm (keysK xs) := (sortK_perm xs).map _
      exact hp.mem_iff.mp hmem
    exact hnd.1 (by simpa [keysK] using this)

/-- Sorting any permutation of a canonical (strictly sorted) list returns
that canonical list: the sort is a canonicalizer. -/
theorem sortK_eq_of_perm {β : Type} {l m : KList β} (hperm : l.Perm m)
    (hm : ssortedK m) : sortK l = m := by
  have hndm : (keysK m).Nodup := keysNodup_of_ssortedK hm
  have hkp : (keysK l).Perm (keysK m) := hperm.map (·.1)
  have hndl : (keysK l).Nodup := hkp.nodup_iff.mpr hndm
  have hsl : ssortedK (sortK l) := ssortedK_sortK hndl
  have hp : (sortK l).Perm m := (sortK_perm l).trans hperm
  exact List.eq_of_perm_of_sorted hp hsl hm


/-- Insert-or-replace into an association list kept sorted by key. -/
def upsertK {β : Type} : KList β → List Nat → β → KList β
  | [], p, v => [(p, v)]
  | e :: t, p, v =>
    if pathLt e.1 p then e :: upsertK t p v
    else if e.1 = p then (p, v) :: t
    else (p, v) :: e :: t

/-- Remove every entry with the given key. -/
def eraseK {β : Type} (l : KList β) (p : List Nat) : KList β :=
  l.filter (fun e => decide (e.1 ≠ p))

/-- A staged change is a path together with `some value` (put) or `none`
(pending delete), as in the spec's change map `path → Maybe<value>`. -/
abbrev Change := List Nat × Option MVal

/-- The trie content: a canonical association list from paths to values. -/
abbrev Entries := KList MVal

/-- Apply a single staged change to the content. -/
def applyChange (m : Entries) (c : Change) : Entries :=
  match c.2 with
  | some v => upsertK m c.1 v
  | none => eraseK m c.1

/-- Apply a batch of staged changes in order (later writes supersede). -/
def applyChanges (m : Entries) (cs : List Change) : Entries :=
  cs.foldl applyChange m

/-- The decisive (latest) write for a key in a change list, if any:
the first match in the reversed batch. -/
def lastChange (cs : List Change) (p : List Nat) : Option (Option MVal) :=
  lookupK cs.reverse p

theorem lookupK_append {β : Type} (A B : KList β) (p : List Nat) :
    lookupK (A ++ B) p =
      match lookupK A p with
      | some v => some v
      | none => lookupK B p := by
  induction A with
  | nil => rfl
  | cons e t ih =>
    by_cases h : e.1 = p
    · simp [lookupK, h]
    · simp [lookupK, h, ih]

theorem lastChange_cons (c : Change) (cs : List Change) (p : List Nat) :
    lastChange (c :: cs) p =
      match lastChange cs p with
      | some r => some r
      | none => if c.1 = p then some c.2 else none := by
  simp only [lastChange, List.reverse_cons, lookupK_append]
  cases lookupK cs.reverse p with
  | some r => rfl
  | none => simp [lookupK]

/-- The decisive write is permutation-invariant when the batch touches
pairwise distinct keys. -/
theorem lastChange_perm {cs cs' : List Change} (hperm : cs.Perm cs')
    (hnd : (cs.map (·.1)).Nodup) (p : List Nat) :
    lastChange cs p = lastChange cs' p := by
  have hndr : (keysK cs.reverse).Nodup := by
    have : keysK cs.reverse = (cs.map (·.1)).reverse := by
      simp [keysK, List.map_reverse]
    rw [this, List.nodup_reverse]
    exact hnd
  have hp : cs.reverse.Perm cs'.reverse :=
    ((cs.reverse_perm).trans hperm).trans cs'.reverse_perm.symm
  exact lookupK_perm hndr hp p

theorem lookupK_upsertK {β : Type} (l : KList β) (p : List Nat) (v : β) (q : List Nat) :
    lookupK (upsertK l p v) q = if q = p then some v else lookupK l q := by
  induction l with
  | nil =>
    simp only [upsertK, lookupK]
    by_cases h : q = p
    · rw [if_pos h.symm, if_pos h]
    · rw [if_neg (fun h' => h h'.symm), if_neg h]
  | cons e t ih =>
    simp only [upsertK]
    by_cases h1 : pathLt e.1 p
    · rw [if_pos h1]
      by_cases h2 : q = p
      · subst h2
        have hne : e.1 ≠ q := by
          intro he; rw [he, pathLt_irrefl] at h1; exact Bool.noConfusion h1
        simp [lookupK, hne, ih]
      · simp only [lookupK, ih, if_neg h2]
    · rw [if_neg h1]
      by_cases h2 : e.1 = p
      · rw [if_pos h2]
        by_cases h3 : q = p
        · subst h3
          simp [lookupK, h2]
        · rw [if_neg h3]
          simp only [lookupK]
          rw [if_neg (fun h' => h3 h'.symm), if_neg (fun h' => h3 (h'.symm.trans h2))]
      · rw [if_neg h2]
        by_cases h3 : q = p
        · subst h3
          simp [lookupK, h2]
        · rw [if_neg h3]
          simp only [lookupK]
          rw [if_neg (fun h' => h3 h'.symm)]

theorem lookupK_eraseK {β : Type} (l : KList β) (p q : List Nat) :
    lookupK (eraseK l p) q = if q = p then none else lookupK l q := by
  induction l with
  | nil => simp [eraseK, lookupK]
  | cons e t ih =>
    simp only [eraseK] at ih ⊢
    rw [List.filter_cons]
    by_cases h1 : e.1 = p
    · rw [if_neg (by simp [h1])]
      rw [ih]
      by_cases h2 : q = p
      · rw [if_pos h2, if_pos h2]
      · rw [if_neg h2, if_neg h2]
        simp only [lookupK]
        rw [if_neg (fun h' => h2 (h'.symm.trans h1))]
    · rw [if_pos (by simp [h1])]
      simp only [lookupK, ih]
      by_cases h2 : q = p
      · rw [if_pos h2, if_pos h2, if_neg (fun h' => h1 (h'.trans h2))]
      · rw [if_neg h2, if_neg h2]

theorem lookupK_applyChanges (m : Entries) (cs : List Change) (p : List Nat) :
    lookupK (applyChanges m cs) p =
      match lastChange cs p with
      | some r => r
      | none => lookupK m p := by
  induction cs generalizing m with
  | nil => rfl
  | cons c cs ih =>
    show lookupK (applyChanges (applyChange m c) cs) p = _
    rw [ih (applyChange m c), lastChange_cons]
    cases hlc : lastChange cs p with
    | some r => rfl
    | none =>
      simp only []
      by_cases hc : c.1 = p
      · rw [if_pos hc]
        cases hv : c.2 with
        | some v =>
          simp only [applyChange, hv, lookupK_upsertK]
          rw [if_pos hc.symm]
        | none =>
          simp only [applyChange, hv, lookupK_eraseK]
          rw [if_pos hc.symm]
      · rw [if_neg hc]
        cases hv : c.2 with
        | some v =>
          simp only [applyChange, hv, lookupK_upsertK]
          rw [if_neg (fun h' => hc h'.symm)]
        | none =>
          simp only [applyChange, hv, lookupK_eraseK]
          rw [if_neg (fun h' => hc h'.symm)]

theorem mem_upsertK {β : Type} {l : KList β} {p : List Nat} {v : β} {z : List Nat × β}
    (h : z ∈ upsertK l p v) : z = (p, v) ∨ z ∈ l := by
  induction l with
  | nil => simpa [upsertK] using h
  | cons e t ih =>
    simp only [upsertK] at h
    by_cases h1 : pathLt e.1 p
    · rw [if_pos h1] at h
      rcases List.mem_cons.mp h with h' | h'
      · exact Or.inr (h' ▸ List.mem_cons_self e t)
      · rcases ih h' with h'' | h''
        · exact Or.inl h''
        · exact Or.inr (List.mem_cons_of_mem _ h'')
    · rw [if_neg h1] at h
      by_cases h2 : e.1 = p
      · rw [if_pos h2] at h
        rcases List.mem_cons.mp h with h' | h'
        · exact Or.inl h'
        · exact Or.inr (List.mem_cons_of_mem _ h')
      · rw [if_neg h2] at h
        rcases List.mem_cons.mp h with h' | h'
        · exact Or.inl h'
        · exact Or.inr h'

theorem ssortedK_upsertK {β : Type} {l : KList β} (hs : ssortedK l)
    (p : List Nat) (v : β) : ssortedK (upsertK l p v) := by
  induction l with
  | nil => exact List.pairwise_singleton _ _
  | cons e t ih =>
    obtain ⟨hhead, htail⟩ := List.pairwise_cons.mp hs
    simp only [upsertK]
    by_cases h1 : pathLt e.1 p
    · rw [if_pos h1]
      refine List.pairwise_cons.mpr ⟨?_, ih htail⟩
      intro z hz
      rcases mem_upsertK hz with h' | h'
      · rw [h']; exact h1
      · exact hhead z h'
    · rw [if_neg h1]
      by_cases h2 : e.1 = p
      · rw [if_pos h2]
        refine List.pairwise_cons.mpr ⟨?_, htail⟩
        intro z hz
        exact h2 ▸ hhead z hz
      · rw [if_neg h2]
        refine List.pairwise_cons.mpr ⟨?_, hs⟩
        intro z hz
        rcases List.mem_cons.mp hz with h' | h'
        · rw [h']
          rcases pathLt_false_cases (Bool.eq_false_iff.mpr h1) with h'' | h''
          · exact h''
          · exact absurd h'' h2
        · have := hhead z h'
          rcases pathLt_false_cases (Bool.eq_false_iff.mpr h1) with h'' | h''
          · exact pathLt_trans h'' this
          · exact absurd h'' h2

theorem ssortedK_eraseK {β : Type} {l : KList β} (hs : ssortedK l)
    (p : List Nat) : ssortedK (eraseK l p) :=
  List.Pairwise.sublist (List.filter_sublist l) hs

theorem ssortedK_applyChanges {m : Entries} (hs : ssortedK m) (cs : List Change) :
    ssortedK (applyChanges m cs) := by
  induction cs generalizing m with
  | nil => exact hs
  | cons c cs ih =>
    show ssortedK (applyChanges (applyChange m c) cs)
    refine ih ?_
    cases hv : c.2 with
    | some v => simpa only [applyChange, hv] using ssortedK_upsertK hs c.1 v
    | none => simpa only [applyChange, hv] using ssortedK_eraseK hs c.1

theorem lookupK_head_none {β : Type} {e : List Nat × β} {t : KList β}
    (hs : ssortedK (e :: t)) : lookupK t e.1 = none := by
  obtain ⟨hhead, _⟩ := List.pairwise_cons.mp hs
  refine lookupK_eq_none (fun z hz he => ?_)
  have := hhead z hz
  rw [ltK, he, pathLt_irrefl] at this
  exact Bool.noConfusion this

/-- Extensionality for canonical stores: two strictly sorted association
lists with the same lookup function are equal. -/
theorem klist_lookup_ext {β : Type} :
    ∀ {l m : KList β}, ssortedK l → ssortedK m →
      (∀ p, lookupK l p = lookupK m p) → l = m
  | [], [], _, _, _ => rfl
  | [], e :: t, _, _, hext => by
    have := hext e.1
    simp [lookupK] at this
  | e :: t, [], _, _, hext => by
    have := hext e.1
    simp [lookupK] at this
  | e :: t, f :: u, hl, hm, hext => by
    have he : lookupK (e :: t) e.1 = some e.2 := by simp [lookupK]
    have hf : lookupK (f :: u) f.1 = some f.2 := by simp [lookupK]
    have hef : e = f := by
      by_cases hle : pathLt e.1 f.1
      · exfalso
        have h1 := (hext e.1).symm.trans he
        simp only [lookupK] at h1
        by_cases h2 : f.1 = e.1
        · rw [h2, pathLt_irrefl] at hle; exact Bool.noConfusion hle
        · rw [if_neg h2] at h1
          obtain ⟨hheadm, _⟩ := List.pairwise_cons.mp hm
          have hlt := hheadm _ (lookupK_mem h1)
          rw [ltK] at hlt
          simp only at hlt
          rw [pathLt_asymm hle] at hlt
          exact Bool.noConfusion hlt
      · by_cases hge : pathLt f.1 e.1
        · exfalso
          have h1 := (hext f.1).trans hf
          simp only [lookupK] at h1
          by_cases h2 : e.1 = f.1
          · rw [h2, pathLt_irrefl] at hge; exact Bool.noConfusion hge
          · rw [if_neg h2] at h1
            obtain ⟨hheadl, _⟩ := List.pairwise_cons.mp hl
            have hlt := hheadl _ (lookupK_mem h1)
            rw [ltK] at hlt
            simp only at hlt
            rw [pathLt_asymm hge] at hlt
            exact Bool.noConfusion hlt
        · have hkey : e.1 = f.1 :=
            pathLt_connex (Bool.eq_false_iff.mpr hle) (Bool.eq_false_iff.mpr hge)
          have h1 := (hext e.1).trans (hkey ▸ hf)
          rw [he] at h1
          have hval : e.2 = f.2 := Option.some.inj h1
          cases e; cases f
          simp only at hkey hval
          rw [hkey, hval]
    subst hef
    have htail : t = u := by
      refine klist_lookup_ext (List.Pairwise.of_cons hl) (List.Pairwise.of_cons hm)
        (fun p => ?_)
      by_cases hp : p = e.1
      · rw [hp, lookupK_head_none hl, lookupK_head_none hm]
      · have h1 := hext p
        simp only [lookupK] at h1
        rw [if_neg (fun h' => hp h'.symm), if_neg (fun h' => hp h'.symm)] at h1
        exact h1
    rw [htail]

/-- Content stores with distinct keys are pointwise equal after applying a
permutation of a batch with pairwise-distinct keys. -/
theorem applyChanges_perm_eq {m : Entries} (hm : ssortedK m) {cs cs' : List Change}
    (hperm : cs.Perm cs') (hnd : (cs.map (·.1)).Nodup) :
    applyChanges m cs = applyChanges m cs' :=
  klist_lookup_ext (ssortedK_applyChanges hm cs) (ssortedK_applyChanges hm cs')
    (fun p => by
      rw [lookupK_applyChanges, lookupK_applyChanges, lastChange_perm hperm hnd p])

/-- Pack a nibble sequence into bytes, padding an odd tail nibble. -/
def packNibbles : List Nat → List Nat
  | [] => []
  | [a] => [a * 16]
  | a :: b :: rest => (a * 16 + b) :: packNibbles rest

/-- Path serialization with the even/odd-length marker byte. -/
def serPath (p : MPath) : List Nat := p.length % 2 :: packNibbles p

/-- Big-endian 16-bit length field. -/
def u16 (n : Nat) : List Nat := [n / 256 % 256, n % 256]

/-- Big-endian 32-bit length field. -/
def u32 (n : Nat) : List Nat := [n / 16777216 % 256, n / 65536 % 256, n / 256 % 256, n % 256]

/-- A trie node: absolute key, optional value, and children indexed by
nibble, each carrying its compressed path suffix. -/
inductive RNode where
  | mk (key : MPath) (value : Option MVal) (children : List (Nat × MPath × RNode))

/-- Longest common prefix of two paths. -/
def lcp2 : List Nat → List Nat → List Nat
  | a :: as, b :: bs => if a = b then a :: lcp2 as bs else []
  | _, _ => []

/-- Longest common prefix of a family of paths. -/
def lcpAll : List (List Nat) → List Nat
  | [] => []
  | [p] => p
  | p :: q :: rest => lcp2 p (lcpAll (q :: rest))

/-- Entries whose (relative) path starts with the given nibble, stripped
of that nibble. -/
def childGroup (es : List (MPath × MVal)) (n : Nat) : List (MPath × MVal) :=
  es.filterMap (fun e =>
    match e.1 with
    | m :: rest => if m = n then some (rest, e.2) else none
    | [] => none)

/-- Build the compressed radix trie for a batch of entries addressed
relative to `key`; branch on the leading nibble and compress each branch
by its longest common prefix. -/
def buildT : Nat → MPath → List (MPath × MVal) → RNode
  | 0, key, _ => .mk key none []
  | fuel + 1, key, es =>
    .mk key ((es.find? (fun e => decide (e.1 = []))).map (·.2))
      ((List.range 16).filterMap (fun n =>
        let g := childGroup es n
        if g.isEmpty then none
        else
          let pre := lcpAll (g.map (·.1))
          some (n, pre,
            buildT fuel (key ++ n :: pre) (g.map (fun e => (e.1.drop pre.length, e.2))))))

/-- Encoding of the optional value slot: a presence bit, then a 32-bit
length and the raw bytes. -/
def encVal : Option MVal → List Nat
  | none => [0]
  | some v => 1 :: (u32 v.length ++ v)

/-- Canonical node encoding: key length and serialization, value slot,
child count, then each child in ascending nibble order as nibble byte,
suffix length and serialization, and the child subtree digest. -/
def encodeNodeF (h : List Nat → List Nat) : Nat → RNode → List Nat
  | 0, _ => []
  | fuel + 1, .mk key value children =>
    u16 key.length ++ serPath key ++ encVal value ++ [children.length] ++
      (children.map (fun c =>
        c.1 :: (u16 c.2.1.length ++ serPath c.2.1 ++ h (encodeNodeF h fuel c.2.2)))).flatten

/-- Depth bound used to run the structurally fueled builder to completion. -/
def maxKeyLen (m : Entries) : Nat := m.foldl (fun acc e => max acc e.1.length) 0

/-- The fixed sentinel digest of the empty trie. -/
def emptyRootID : List Nat := List.replicate 32 0

/-- The Merkle root of a canonical content store under digest function `h`:
the digest of the root node, or the sentinel for the empty trie. -/
def merkleRoot (h : List Nat → List Nat) (m : Entries) : List Nat :=
  match m with
  | [] => emptyRootID
  | _ => h (encodeNodeF h (maxKeyLen m + 1) (buildT (maxKeyLen m + 1) [] m))

/-- A batch operation as accepted by `NewView` / `NewBatch`: a byte key,
a byte value and a delete flag. -/
structure BatchOp where
  key : List Nat
  value : MVal
  delete : Bool
deriving DecidableEq, Repr

/-- The staged change induced by one batch operation. -/
def opChange (op : BatchOp) : Change :=
  (newPath op.key, if op.delete then none else some op.value)

/-- The change map staged by a whole batch. -/
def batchChanges (ops : List BatchOp) : List Change := ops.map opChange

theorem newPath_inj_bytes : ∀ {a b : List Nat},
    (∀ x ∈ a, x < 256) → (∀ x ∈ b, x < 256) → newPath a = newPath b → a = b
  | [], [], _, _, _ => rfl
  | [], y :: ys, _, _, h => by simp [newPath] at h
  | x :: xs, [], _, _, h => by simp [newPath] at h
  | x :: xs, y :: ys, ha, hb, h => by
    simp only [newPath, List.foldr_cons] at h
    have h1 : x / 16 % 16 = y / 16 % 16 := List.head_eq_of_cons_eq h
    have htl := List.tail_eq_of_cons_eq h
    have h2 : x % 16 = y % 16 := List.head_eq_of_cons_eq htl
    have h3 := List.tail_eq_of_cons_eq htl
    have hx := ha x (List.mem_cons_self _ _)
    have hy := hb y (List.mem_cons_self _ _)
    have hxy : x = y := by omega
    rw [hxy]
    have := newPath_inj_bytes (fun z hz => ha z (List.mem_cons_of_mem _ hz))
      (fun z hz => hb z (List.mem_cons_of_mem _ hz)) h3
    rw [this]

theorem batchChanges_keys_nodup (ops : List BatchOp)
    (hnd : (ops.map BatchOp.key).Nodup)
    (hb : ∀ op ∈ ops, ∀ x ∈ op.key, x < 256) :
    ((batchChanges ops).map (·.1)).Nodup := by
  have heq : (batchChanges ops).map (·.1) = (ops.map BatchOp.key).map newPath := by
    simp [batchChanges, opChange, Function.comp_def]
  rw [heq]
  refine List.Nodup.map_on ?_ hnd
  intro x hx y hy hxy
  rcases List.mem_map.mp hx with ⟨opx, hopx, hkx⟩
  rcases List.mem_map.mp hy with ⟨opy, hopy, hky⟩
  exact newPath_inj_bytes (hkx ▸ hb opx hopx) (hky ▸ hb opy hopy) hxy

/-- Batch splitter, fueled by the list length so that each step either
takes a batch of `k` elements or, on exhausted fuel, the whole remainder. -/
def chunksGo {α : Type} : Nat → Nat → List α → List (List α)
  | _, _, [] => []
  | 0, _, x :: l => [x :: l]
  | fuel + 1, k, x :: l => ((x :: l).take k) :: chunksGo fuel k ((x :: l).drop k)

/-- Split a list into batches of the given (positive) size. -/
def chunksB {α : Type} (k : Nat) (l : List α) : List (List α) :=
  chunksGo l.length k l

theorem chunksGo_join {α : Type} :
    ∀ (fuel k : Nat) (l : List α), (chunksGo fuel k l).flatten = l
  | fuel, k, [] => by cases fuel <;> simp [chunksGo]
  | 0, _, x :: l => by simp [chunksGo]
  | fuel + 1, k, x :: l => by
    simp only [chunksGo, List.flatten_cons, chunksGo_join fuel k ((x :: l).drop k)]
    rw [List.take_append_drop]

theorem chunksB_join {α : Type} (k : Nat) (l : List α) : (chunksB k l).flatten = l :=
  chunksGo_join l.length k l

/-- The put changes that replay a raw content store, as `rebuild` reads the
byte store's raw key/value pairs. -/
def entriesChanges (m : Entries) : List Change := m.map (fun e => (e.1, some e.2))

/-- Modelled from the spec: `rebuild` discards all materialized nodes and
reapplies the byte store's raw pairs through views in batches of
`EvictionBatchSize`, starting from an empty trie. -/
def rebuildE (k : Nat) (m : Entries) : Entries :=
  (chunksB k m).foldl (fun acc b => applyChanges acc (entriesChanges b)) []

theorem lookupK_entriesChanges (m : Entries) (p : List Nat) :
    lookupK (entriesChanges m) p = (lookupK m p).map some := by
  induction m with
  | nil => rfl
  | cons e t ih =>
    simp only [entriesChanges, List.map_cons, lookupK] at ih ⊢
    by_cases h : e.1 = p
    · rw [if_pos h, if_pos h]; rfl
    · rw [if_neg h, if_neg h, ih]

theorem lastChange_entriesChanges {m : Entries} (hnd : (keysK m).Nodup) (p : List Nat) :
    lastChange (entriesChanges m) p = (lookupK m p).map some := by
  have h1 : (entriesChanges m).reverse = entriesChanges m.reverse := by
    simp [entriesChanges, List.map_reverse]
  have hndr : (keysK m.reverse).Nodup := by
    have : keysK m.reverse = (keysK m).reverse := by simp [keysK, List.map_reverse]
    rw [this, List.nodup_reverse]; exact hnd
  rw [lastChange, h1, lookupK_entriesChanges, lookupK_perm hndr m.reverse_perm p]

theorem applyChanges_entriesChanges {m : Entries} (hm : ssortedK m) :
    applyChanges [] (entriesChanges m) = m := by
  refine klist_lookup_ext (ssortedK_applyChanges List.Pairwise.nil _) hm (fun p => ?_)
  rw [lookupK_applyChanges, lastChange_entriesChanges (keysNodup_of_ssortedK hm)]
  cases lookupK m p with
  | some v => rfl
  | none => rfl

/-- Rebuilding from the raw pairs in batches of any size reproduces the
canonical content exactly. -/
theorem rebuildE_eq {m : Entries} (hm : ssortedK m) (k : Nat) : rebuildE k m = m := by
  have h1 : rebuildE k m =
      ((chunksB k m).map entriesChanges).foldl (fun acc cs => applyChanges acc cs) [] := by
    rw [rebuildE, List.foldl_map]
  have h2 : ((chunksB k m).map entriesChanges).foldl (fun acc cs => applyChanges acc cs) [] =
      applyChanges [] (((chunksB k m).map entriesChanges).flatten) := by
    simp only [applyChanges]
    rw [List.foldl_flatten]
  have h3 : ((chunksB k m).map entriesChanges).flatten = entriesChanges m := by
    have he : entriesChanges = List.map (fun e : List Nat × MVal => (e.1, some e.2)) := rfl
    rw [he, ← List.map_flatten, chunksB_join]
  rw [h1, h2, h3, applyChanges_entriesChanges hm]

/-- Lower-bound test of a range: `none` is unbounded. -/
def lowOk (s : Option MPath) (p : MPath) : Bool :=
  match s with
  | none => true
  | some sp => !pathLt p sp

/-- Upper-bound test of a range: `none` is unbounded. -/
def highOk (e : Option MPath) (p : MPath) : Bool :=
  match e with
  | none => true
  | some ep => !pathLt ep p

/-- Inclusive range membership used by range and change proofs. -/
def inRange (s e : Option MPath) (p : MPath) : Bool := lowOk s p && highOk e p

/-- Key of the last entry of an association list (empty path if none). -/
def lastKeyK {β : Type} (l : KList β) : List Nat :=
  match l.getLast? with
  | some kv => kv.1
  | none => []

theorem lastKeyK_cons {β : Type} (x : List Nat × β) {l : KList β} (hl : l ≠ []) :
    lastKeyK (x :: l) = lastKeyK l := by
  cases l with
  | nil => exact absurd rfl hl
  | cons y ys => simp [lastKeyK, List.getLast?_cons_cons]

theorem lastKeyK_mem {β : Type} {l : KList β} (hl : l ≠ []) :
    ∃ kv ∈ l, kv.1 = lastKeyK l := by
  cases hg : l.getLast? with
  | none => exact absurd (List.getLast?_eq_none_iff.mp hg) hl
  | some kv =>
    refine ⟨kv, List.mem_of_mem_getLast? ?_, by simp [lastKeyK, hg]⟩
    rw [hg]; rfl

theorem highOk_of_not_lt {e : Option MPath} {L p : MPath} (hL : highOk e L = true)
    (hp : pathLt L p = false) : highOk e p = true := by
  cases e with
  | none => rfl
  | some ep =>
    simp only [highOk, Bool.not_eq_true'] at hL ⊢
    cases hc : pathLt ep p with
    | false => rfl
    | true =>
      exfalso
      rcases pathLt_false_cases hp with h' | h'
      · have := pathLt_trans hc h'
        rw [hL] at this; exact Bool.noConfusion this
      · rw [← h'] at hc
        rw [hL] at hc; exact Bool.noConfusion hc

/-- In a strictly sorted list, the entries not exceeding the last key of
`take n` are exactly `take n`. -/
theorem filter_take_sorted {β : Type} :
    ∀ (l : KList β) (n : Nat), ssortedK l → 0 < n → n < l.length →
      l.filter (fun kv => !pathLt (lastKeyK (l.take n)) kv.1) = l.take n
  | [], n, _, _, hl => by simp at hl
  | x :: t, 1, hs, _, _ => by
    obtain ⟨hhead, _⟩ := List.pairwise_cons.mp hs
    have hone : (x :: t).take 1 = [x] := by simp
    rw [hone]
    have hkey : lastKeyK [x] = x.1 := by simp [lastKeyK]
    rw [hkey, List.filter_cons]
    rw [if_pos (by simp [pathLt_irrefl])]
    congr 1
    rw [List.filter_eq_nil_iff]
    intro z hz
    have := hhead z hz
    simp [ltK] at this
    simp [this]
  | x :: t, j + 2, hs, _, hl => by
    obtain ⟨hhead, htail⟩ := List.pairwise_cons.mp hs
    have hjlen : j + 1 < t.length := by
      simp only [List.length_cons] at hl
      omega
    have hT : t.take (j + 1) ≠ [] := by
      intro he
      have := congrArg List.length he
      simp [Nat.min_eq_left (Nat.le_of_lt hjlen)] at this
    rw [List.take_succ_cons, lastKeyK_cons x hT]
    obtain ⟨kv, hkvT, hkvL⟩ := lastKeyK_mem hT
    have hkvt : kv ∈ t := List.mem_of_mem_take hkvT
    have hxkv : pathLt x.1 kv.1 = true := hhead kv hkvt
    have hkeepx : pathLt (lastKeyK (t.take (j + 1))) x.1 = false := by
      rw [← hkvL]; exact pathLt_asymm hxkv
    rw [List.filter_cons, if_pos (by simp [hkeepx])]
    rw [filter_take_sorted t (j + 1) htail (Nat.succ_pos j) hjlen]

/-- A range proof: the attested key/value pairs, the upper end of the
attested region (clipped to the last included key when the limit was hit),
and the content committed to by the boundary proofs outside the attested
region. Digests are modelled symbolically: a boundary proof's child
digests commit to exactly the off-region content of the source trie. -/
structure RangeProof where
  kvs : Entries
  hi : Option MPath
  side : Entries
deriving DecidableEq, Repr

/-- Modelled from the spec: range proof generation over `[start, end]`
with limit `N` at the trie whose canonical content is `m`: the sorted list
of at most `N` in-range pairs, plus boundary proofs; when clipped, the end
proof reaches only the last included key. -/
def getRangeProofE (m : Entries) (s e : Option MPath) (n : Nat) : RangeProof :=
  let inR := m.filter (fun kv => inRange s e kv.1)
  let kvs := inR.take n
  let hi := if n < inR.length then some (lastKeyK kvs) else e
  { kvs := kvs, hi := hi, side := m.filter (fun kv => !(inRange s hi kv.1)) }

/-- Modelled from the spec: verification rebuilds a sparse trie from the
attested pairs plus the boundary proofs and compares its root with the
expected root; it also checks the pairs lie within the queried bounds. -/
def verifyRangeProofE (h : List Nat → List Nat) (pf : RangeProof)
    (s e : Option MPath) (root : List Nat) : Bool :=
  pf.kvs.all (fun kv => inRange s e kv.1) &&
    decide (root = merkleRoot h (sortK (pf.side ++ pf.kvs)))

/-- Modelled from the spec: `CommitRangeProof` makes the target, within the
attested region, exactly equal to the proof's pairs and leaves the rest of
the target untouched. -/
def commitRangeProofE (t : Entries) (s : Option MPath) (pf : RangeProof) : Entries :=
  sortK (t.filter (fun kv => !(inRange s pf.hi kv.1)) ++ pf.kvs)

theorem filter_region_split (m : Entries) (s e : Option MPath) (L : MPath)
    (hL : highOk e L = true) :
    m.filter (fun kv => inRange s (some L) kv.1) =
      (m.filter (fun kv => inRange s e kv.1)).filter (fun kv => !pathLt L kv.1) := by
  rw [List.filter_filter]
  refine (List.filter_congr (fun kv _ => ?_)).symm
  show ((!pathLt L kv.1) && inRange s e kv.1) = inRange s (some L) kv.1
  simp only [inRange, highOk]
  cases hp : pathLt L kv.1 with
  | true => simp
  | false =>
    have hok := highOk_of_not_lt hL hp
    simp only [highOk] at hok
    simp [lowOk, hok]

theorem getRangeProofE_kvs (m : Entries) (s e : Option MPath) (n : Nat) :
    (getRangeProofE m s e n).kvs = (m.filter (fun kv => inRange s e kv.1)).take n := rfl

theorem getRangeProofE_side (m : Entries) (s e : Option MPath) (n : Nat) :
    (getRangeProofE m s e n).side =
      m.filter (fun kv => !(inRange s (getRangeProofE m s e n).hi kv.1)) := rfl

/-- The attested pairs are exactly the source content inside the attested
region `[start, hi]`. -/
theorem kvs_eq_filter_region {m : Entries} (hm : ssortedK m) (s e : Option MPath)
    {n : Nat} (hn : 0 < n) :
    (getRangeProofE m s e n).kvs =
      m.filter (fun kv => inRange s (getRangeProofE m s e n).hi kv.1) := by
  have hsr : ssortedK (m.filter (fun kv => inRange s e kv.1)) :=
    List.Pairwise.sublist (List.filter_sublist m) hm
  by_cases hc : n < (m.filter (fun kv => inRange s e kv.1)).length
  · have hhi : (getRangeProofE m s e n).hi =
        some (lastKeyK ((m.filter (fun kv => inRange s e kv.1)).take n)) := by
      simp only [getRangeProofE, if_pos hc]
    have hkvs := getRangeProofE_kvs m s e n
    set inR := m.filter (fun kv => inRange s e kv.1) with hinR
    have hTne : inR.take n ≠ [] := by
      intro he
      have := congrArg List.length he
      simp [Nat.min_eq_left (Nat.le_of_lt hc)] at this
      omega
    obtain ⟨kv, hkvT, hkvL⟩ := lastKeyK_mem hTne
    have hkvm : kv ∈ inR := List.mem_of_mem_take hkvT
    have hkvR : inRange s e kv.1 = true := (List.mem_filter.mp hkvm).2
    have hL : highOk e (lastKeyK (inR.take n)) = true := by
      rw [← hkvL]
      exact (Bool.and_eq_true_iff.mp hkvR).2
    rw [hkvs, hhi]
    rw [filter_region_split m s e _ hL]
    exact (filter_take_sorted inR n hsr hn hc).symm
  · have hhi : (getRangeProofE m s e n).hi = e := by
      simp only [getRangeProofE, if_neg hc]
    rw [getRangeProofE_kvs, hhi,
      List.take_of_length_le (Nat.le_of_not_lt hc)]

/-- The boundary content and the attested pairs together permute to the
whole source content. -/
theorem proof_content_perm {m : Entries} (hm : ssortedK m) (s e : Option MPath)
    {n : Nat} (hn : 0 < n) :
    ((getRangeProofE m s e n).side ++ (getRangeProofE m s e n).kvs).Perm m := by
  rw [kvs_eq_filter_region hm s e hn, getRangeProofE_side]
  refine List.Perm.trans List.perm_append_comm ?_
  exact List.filter_append_perm _ m

/-- The verifier accepts every proof generated from a canonical source,
checked against the source's own root. -/
theorem verify_getRangeProofE {m : Entries} (hm : ssortedK m)
    (h : List Nat → List Nat) (s e : Option MPath) {n : Nat} (hn : 0 < n) :
    verifyRangeProofE h (getRangeProofE m s e n) s e (merkleRoot h m) = true := by
  rw [verifyRangeProofE, Bool.and_eq_true_iff]
  constructor
  · rw [List.all_eq_true]
    intro kv hkv
    rw [getRangeProofE_kvs] at hkv
    exact (List.mem_filter.mp (List.mem_of_mem_take hkv)).2
  · rw [sortK_eq_of_perm (proof_content_perm hm s e hn) hm]
    simp

theorem getRangeProofE_len (m : Entries) (s e : Option MPath) (n : Nat) :
    (getRangeProofE m s e n).kvs.length ≤ n := by
  rw [getRangeProofE_kvs]
  exact List.length_take_le n _

theorem lookupK_filter_keep {β : Type} (l : KList β) (pred : List Nat × β → Bool)
    (p : List Nat) (hkeep : ∀ v : β, pred (p, v) = true) :
    lookupK (l.filter pred) p = lookupK l p := by
  induction l with
  | nil => rfl
  | cons e t ih =>
    rw [List.filter_cons]
    by_cases he : e.1 = p
    · have hpe : pred e = true := by
        have : e = (p, e.2) := by rw [← he]
        rw [this]; exact hkeep e.2
      rw [if_pos (by simp [hpe])]
      simp only [lookupK, if_pos he, ih]
    · by_cases hp : pred e = true
      · rw [if_pos (by simp [hp])]
        simp only [lookupK, if_neg he, ih]
      · rw [if_neg (by simpa using hp), ih]
        simp only [lookupK, if_neg he]

theorem lookupK_filter_none {β : Type} (l : KList β) (pred : List Nat × β → Bool)
    (p : List Nat) (hdrop : ∀ v : β, pred (p, v) = false) :
    lookupK (l.filter pred) p = none := by
  refine lookupK_eq_none (fun z hz he => ?_)
  have hzp : pred z = true := (List.mem_filter.mp hz).2
  have : z = (p, z.2) := by rw [← he]
  rw [this, hdrop z.2] at hzp
  exact Bool.noConfusion hzp

theorem commitRangeProofE_keys_nodup {t : Entries} (ht : ssortedK t)
    {m : Entries} (hm : ssortedK m) (s e : Option MPath) {n : Nat} (hn : 0 < n) :
    (keysK (t.filter (fun kv => !(inRange s (getRangeProofE m s e n).hi kv.1)) ++
      (getRangeProofE m s e n).kvs)).Nodup := by
  have hA : ssortedK (t.filter (fun kv => !(inRange s (getRangeProofE m s e n).hi kv.1))) :=
    List.Pairwise.sublist (List.filter_sublist t) ht
  have hB : ssortedK (getRangeProofE m s e n).kvs := by
    rw [getRangeProofE_kvs]
    exact List.Pairwise.sublist
      ((List.take_sublist _ _).trans (List.filter_sublist m)) hm
  have hkeys : keysK (t.filter (fun kv => !(inRange s (getRangeProofE m s e n).hi kv.1)) ++
      (getRangeProofE m s e n).kvs) =
      keysK (t.filter (fun kv => !(inRange s (getRangeProofE m s e n).hi kv.1))) ++
      keysK (getRangeProofE m s e n).kvs := by
    simp [keysK]
  rw [hkeys]
  refine List.Nodup.append (keysNodup_of_ssortedK hA) (keysNodup_of_ssortedK hB) ?_
  intro a haA haB
  rcases List.mem_map.mp haA with ⟨za, hza, hzaa⟩
  rcases List.mem_map.mp haB with ⟨zb, hzb, hzbb⟩
  have hano : inRange s (getRangeProofE m s e n).hi za.1 = false := by
    have := (List.mem_filter.mp hza).2
    simpa using this
  have hbyes : inRange s (getRangeProofE m s e n).hi zb.1 = true := by
    rw [kvs_eq_filter_region hm s e hn] at hzb
    exact (List.mem_filter.mp hzb).2
  rw [hzaa] at hano
  rw [hzbb] at hbyes
  rw [hano] at hbyes
  exact Bool.noConfusion hbyes

/-- Inside the attested region, the committed target reads exactly the
proof's pairs (attested pairs readable, unattested keys absent). -/
theorem commit_lookup_in {t : Entries} (ht : ssortedK t) {m : Entries}
    (hm : ssortedK m) (s e : Option MPath) {n : Nat} (hn : 0 < n) (p : List Nat)
    (hp : inRange s (getRangeProofE m s e n).hi p = true) :
    lookupK (commitRangeProofE t s (getRangeProofE m s e n)) p =
      lookupK (getRangeProofE m s e n).kvs p := by
  rw [commitRangeProofE]
  rw [← lookupK_perm (commitRangeProofE_keys_nodup ht hm s e hn) (sortK_perm _).symm p]
  rw [lookupK_append]
  rw [lookupK_filter_none t _ p (fun v => by simp [hp])]

/-- Outside the attested region the committed target is untouched. -/
theorem commit_lookup_out {t : Entries} (ht : ssortedK t) {m : Entries}
    (hm : ssortedK m) (s e : Option MPath) {n : Nat} (hn : 0 < n) (p : List Nat)
    (hp : inRange s (getRangeProofE m s e n).hi p = false) :
    lookupK (commitRangeProofE t s (getRangeProofE m s e n)) p = lookupK t p := by
  rw [commitRangeProofE]
  rw [← lookupK_perm (commitRangeProofE_keys_nodup ht hm s e hn) (sortK_perm _).symm p]
  rw [lookupK_append]
  rw [lookupK_filter_keep t _ p (fun v => by simp [hp])]
  have hB : lookupK (getRangeProofE m s e n).kvs p = none := by
    rw [kvs_eq_filter_region hm s e hn]
    exact lookupK_filter_none m _ p (fun v => by simp [hp])
  rw [hB]
  cases lookupK t p with
  | some v => rfl
  | none => rfl

/-- When the proof attests the source's entire content and the target's
prior content lies inside the queried range, committing replaces the
target with exactly the source content. -/
theorem commit_full {t : Entries} (ht : ssortedK t) {m : Entries} (hm : ssortedK m)
    (s e : Option MPath) {n : Nat} (hn : 0 < n)
    (hms : ∀ kv ∈ m, inRange s e kv.1 = true)
    (hts : ∀ kv ∈ t, inRange s e kv.1 = true)
    (hlen : m.length ≤ n) :
    commitRangeProofE t s (getRangeProofE m s e n) = m := by
  have hfm : m.filter (fun kv => inRange s e kv.1) = m :=
    List.filter_eq_self.mpr hms
  have hnc : ¬ n < (m.filter (fun kv => inRange s e kv.1)).length := by
    rw [hfm]; omega
  have hhi : (getRangeProofE m s e n).hi = e := by
    simp only [getRangeProofE, if_neg hnc]
  have hkvs : (getRangeProofE m s e n).kvs = m := by
    rw [getRangeProofE_kvs, hfm, List.take_of_length_le hlen]
  have hside : t.filter (fun kv => !(inRange s (getRangeProofE m s e n).hi kv.1)) = [] := by
    rw [hhi, List.filter_eq_nil_iff]
    intro kv hkv
    simp [hts kv hkv]
  rw [commitRangeProofE, hside, hkvs, List.nil_append]
  exact sortK_eq_of_perm (List.Perm.refl m) hm

/-- Modelled from the spec's design note: a view's parent trie is either
the MerkleDB itself or another view, referenced by arena id. -/
inductive ParentRef where
  | db : ParentRef
  | view (id : Nat) : ParentRef
deriving DecidableEq, Repr

/-- Modelled from the spec: a trie view holds its staged batch, its
parent trie, its `invalidated` flag and its registered child views. -/
structure ViewData where
  changes : List BatchOp
  parent : ParentRef
  invalidated : Bool
  childViews : List Nat
deriving DecidableEq, Repr

/-- The error kinds surfaced to callers. -/
inductive DBErr where
  | notFound
  | invalidated
  | closed
  | sameRoot
  | insufficientHistory
  | invalidProof
  | internal
deriving DecidableEq, Repr

/-- Modelled from the spec: the MerkleDB root container, owning the
canonical content, the registry of tracked child views, the view arena,
and the bounded history of committed contents (newest first). -/
structure DBState where
  entries : Entries
  childViews : List Nat
  views : List (Nat × ViewData)
  history : List Entries
  histLen : Nat
  nextId : Nat
deriving Repr

/-- Fetch a view from the arena. -/
def lookupView (s : DBState) (x : Nat) : Option ViewData :=
  (s.views.find? (fun iv => iv.1 == x)).map (·.2)

/-- A fresh MerkleDB over an empty byte store. -/
def initDB (histLen : Nat) : DBState :=
  { entries := [], childViews := [], views := [], history := [], histLen := histLen, nextId := 0 }

/-- `NewView`: create a tracked child view of the database. -/
def newView (s : DBState) (ops : List BatchOp) : DBState × Nat :=
  let id := s.nextId
  ({ s with views := (id, ⟨ops, .db, false, []⟩) :: s.views,
            childViews := id :: s.childViews, nextId := id + 1 }, id)

/-- `newUntrackedView`: like `NewView` but not registered with the parent. -/
def newUntrackedView (s : DBState) (ops : List BatchOp) : DBState × Nat :=
  let id := s.nextId
  ({ s with views := (id, ⟨ops, .db, false, []⟩) :: s.views, nextId := id + 1 }, id)

/-- Create a tracked child view of an existing view. -/
def newChildView (s : DBState) (pid : Nat) (ops : List BatchOp) : DBState × Nat :=
  let id := s.nextId
  ({ s with
      views := ((id, ⟨ops, .view pid, false, []⟩) :: s.views).map
        (fun iv =>
          if iv.1 = pid then (iv.1, { iv.2 with childViews := id :: iv.2.childViews })
          else iv),
      nextId := id + 1 }, id)

/-- Registered children of a view in the arena. -/
def childrenOf (s : DBState) (id : Nat) : List Nat :=
  match lookupView s id with
  | some vd => vd.childViews
  | none => []

/-- Fueled downward closure of the child registry: invalidation traverses
downward via the parent's registry. -/
def descClosure (s : DBState) : Nat → List Nat → List Nat
  | 0, ids => ids
  | fuel + 1, ids => ids ++ descClosure s fuel ((ids.map (childrenOf s)).flatten)

/-- Flatten the chain of ancestor views into a single ordered change
list, ancestors first (`commit_to_db` semantics). -/
def flattenChanges (s : DBState) : Nat → Nat → List Change
  | 0, _ => []
  | fuel + 1, id =>
    match lookupView s id with
    | none => []
    | some vd =>
      (match vd.parent with
       | .db => []
       | .view pid => flattenChanges s fuel pid) ++ batchChanges vd.changes

/-- The ancestor of a view that is a direct child of the database. -/
def bottomAncestor (s : DBState) : Nat → Nat → Nat
  | 0, id => id
  | fuel + 1, id =>
    match lookupView s id with
    | none => id
    | some vd =>
      match vd.parent with
      | .db => id
      | .view pid => bottomAncestor s fuel pid

/-- Per-view transformation applied by a commit: views in the
invalidation set are marked invalid, the committed view's child registry
is cleared, and its children are reparented to the database. -/
def commitViewMap (committedId : Nat) (children : List Nat) (inv : List Nat)
    (i : Nat) (vd : ViewData) : ViewData :=
  let vd1 := if i ∈ inv then { vd with invalidated := true } else vd
  if i = committedId then { vd1 with childViews := [] }
  else if i ∈ children then { vd1 with parent := .db }
  else vd1

/-- Modelled from the spec: `CommitToDB` fails with INVALIDATED on an
invalid view and otherwise folds the flattened ancestor changes into the
database content, records the new content in the history ring, invalidates
every other tracked child of the database (and, downward, their
descendants), keeps the committed view valid and tracked, and adopts the
committed view's children as children of the database. -/
def commitToDB (s : DBState) (id : Nat) : DBState × Option DBErr :=
  match lookupView s id with
  | none => (s, some .internal)
  | some vd =>
    if vd.invalidated then (s, some .invalidated)
    else
      let cs := flattenChanges s s.views.length id
      let newEntries := applyChanges s.entries cs
      let keep := bottomAncestor s s.views.length id
      let toInv := descClosure s s.views.length (s.childViews.filter (fun i => !(i == keep)))
      ({ s with
          views := s.views.map (fun iv => (iv.1, commitViewMap id vd.childViews toInv iv.1 iv.2)),
          entries := newEntries,
          childViews := id :: vd.childViews,
          history := (newEntries :: s.history).take s.histLen }, none)

/-- Read a key through a view: INVALIDATED if the view is invalid,
otherwise the view's change map, then the parent chain, then the
database content. -/
def viewGet (s : DBState) (fuel : Nat) (id : Nat) (p : List Nat) :
    Except DBErr (Option MVal) :=
  match lookupView s id with
  | none => .error .internal
  | some vd =>
    if vd.invalidated then .error .invalidated
    else
      match lastChange (batchChanges vd.changes) p with
      | some r => .ok r
      | none =>
        match vd.parent with
        | .db => .ok (lookupK s.entries p)
        | .view pid =>
          match fuel with
          | 0 => .error .internal
          | fuel' + 1 => viewGet s fuel' pid p

/-- `GetMerkleRoot` of a fresh view created over the database with the
given batch: the root of the database content overlaid with the staged
changes. -/
def viewMerkleRoot (h : List Nat → List Nat) (s : DBState) (ops : List BatchOp) : List Nat :=
  merkleRoot h (applyChanges s.entries (batchChanges ops))

/-- The database's own Merkle root. -/
def dbMerkleRoot (h : List Nat → List Nat) (s : DBState) : List Nat :=
  merkleRoot h s.entries

/-- Whether a root is retained in the history ring. -/
def hasRoot (h : List Nat → List Nat) (s : DBState) (root : List Nat) : Bool :=
  s.history.any (fun m => decide (merkleRoot h m = root))

/-- The retained content at a root (earliest, i.e. most recent, match). -/
def contentAt (h : List Nat → List Nat) (s : DBState) (root : List Nat) : Option Entries :=
  s.history.find? (fun m => decide (merkleRoot h m = root))

/-- A change proof: the composed key changes between two roots. -/
structure ChangeProof where
  keyChanges : List Change
deriving DecidableEq, Repr

/-- Last-writer-wins composition of two retained contents into the list
of key changes turning the first into the second. -/
def diffChangesK (m1 m2 : Entries) : List Change :=
  (m2.filterMap (fun kv =>
    if lookupK m1 kv.1 = some kv.2 then none else some (kv.1, some kv.2))) ++
  (m1.filterMap (fun kv =>
    if lookupK m2 kv.1 = none then some (kv.1, (none : Option MVal)) else none))

/-- Modelled from the spec: change proof generation fails with SAME_ROOT
when the two roots coincide, with INSUFFICIENT_HISTORY when neither root
is retained, and otherwise composes the retained change sets, restricts
them to the requested bounds and clips them to the item limit. -/
def getChangeProof (h : List Nat → List Nat) (s : DBState)
    (fromRoot toRoot : List Nat) (st en : Option MPath) (n : Nat) :
    Except DBErr ChangeProof :=
  if fromRoot = toRoot then .error .sameRoot
  else if !hasRoot h s fromRoot && !hasRoot h s toRoot then .error .insufficientHistory
  else
    match contentAt h s fromRoot, contentAt h s toRoot with
    | some m1, some m2 =>
      .ok { keyChanges :=
        ((sortK (diffChangesK m1 m2)).filter (fun c => inRange st en c.1)).take n }
    | _, _ => .error .insufficientHistory

/-- Modelled from the spec: `GetRangeProofAtRoot` serves a range proof for
a retained root (the limit must be positive). -/
def getRangeProofAtRoot (h : List Nat → List Nat) (s : DBState) (root : List Nat)
    (st en : Option MPath) (n : Nat) : Except DBErr RangeProof :=
  if n = 0 then .error .internal
  else
    match contentAt h s root with
    | some m => .ok (getRangeProofE m st en n)
    | none => .error .insufficientHistory

/-- Well-formedness of a database state: the live content and every
retained content are canonical. -/
def dbWF (s : DBState) : Prop :=
  ssortedK s.entries ∧ ∀ m ∈ s.history, ssortedK m

instance (s : DBState) : Decidable (dbWF s) := by
  unfold dbWF; infer_instance

/-- `rebuild`: discard materialized nodes and reconstruct the content from
the byte store's raw pairs in batches of `EvictionBatchSize`. -/
def dbRebuild (k : Nat) (s : DBState) : DBState :=
  { s with entries := rebuildE k s.entries }

theorem find_fst_map (l : List (Nat × ViewData)) (f : Nat → ViewData → ViewData) (x : Nat) :
    ((l.map (fun iv => (iv.1, f iv.1 iv.2))).find? (fun iv => iv.1 == x)).map (·.2) =
      ((l.find? (fun iv => iv.1 == x)).map (·.2)).map (f x) := by
  induction l with
  | nil => rfl
  | cons iv t ih =>
    by_cases hx : iv.1 = x
    · rw [List.map_cons,
        List.find?_cons_of_pos _ (by simpa using hx),
        List.find?_cons_of_pos _ (by simpa using hx)]
      simp [hx]
    · rw [List.map_cons,
        List.find?_cons_of_neg _ (by simpa using hx),
        List.find?_cons_of_neg _ (by simpa using hx)]
      exact ih

theorem mem_descClosure_self {s : DBState} {fuel : Nat} {ids : List Nat} {x : Nat}
    (h : x ∈ ids) : x ∈ descClosure s fuel ids := by
  cases fuel with
  | zero => exact h
  | succ k => exact List.mem_append_left _ h

theorem bottomAncestor_direct {s : DBState} {id : Nat} {vd : ViewData} {fuel : Nat}
    (hv : lookupView s id = some vd) (hp : vd.parent = ParentRef.db) :
    bottomAncestor s (fuel + 1) id = id := by
  unfold bottomAncestor
  rw [hv]
  show (match vd.parent with
        | ParentRef.db => id
        | ParentRef.view pid => bottomAncestor s fuel pid) = id
  rw [hp]

theorem views_length_pos {s : DBState} {id : Nat} {vd : ViewData}
    (hv : lookupView s id = some vd) : 0 < s.views.length := by
  unfold lookupView at hv
  cases hvs : s.views with
  | nil => rw [hvs] at hv; cases hv
  | cons a t => simp [hvs]

/-- Modelled from the spec: the external byte store, which may be closed;
operations on a closed store fail with the CLOSED error kind. -/
structure RawStore where
  data : KList MVal
  closed : Bool
deriving Repr

/-- Byte store read: CLOSED when closed, NOT_FOUND on a missing key. -/
def rawGet (r : RawStore) (k : List Nat) : Except DBErr MVal :=
  if r.closed then .error .closed
  else
    match lookupK r.data k with
    | some v => .ok v
    | none => .error .notFound

/-- Modelled from the spec: the MerkleDB's read path with its value cache,
which may hold a cached value or a known-absent tombstone. -/
structure CDB where
  raw : RawStore
  valueCache : KList (Option MVal)
deriving Repr

/-- `Get`: consult the value cache first (a tombstone answers NOT_FOUND
without touching the byte store); only a cache miss reads the byte store. -/
def cdbGet (d : CDB) (k : List Nat) : Except DBErr MVal :=
  match lookupK d.valueCache k with
  | some (some v) => .ok v
  | some none => .error .notFound
  | none => rawGet d.raw k

/-- The written value of a batch operation (`none` for a delete). -/
def opVal (op : BatchOp) : Option MVal := if op.delete then none else some op.value

/-- `Batch.Write`: fails with CLOSED against a closed byte store and
otherwise applies the operations and populates the value cache (deletes
leave known-absent tombstones). -/
def cdbBatchWrite (d : CDB) (ops : List BatchOp) : Except DBErr CDB :=
  if d.raw.closed then .error .closed
  else .ok
    { raw := { d.raw with
        data := applyChanges d.raw.data (ops.map (fun op => (op.key, opVal op))) },
      valueCache := ops.foldl (fun c op => upsertK c op.key (opVal op)) d.valueCache }

/-- Close the underlying byte store out from under the MerkleDB. -/
def closeRaw (d : CDB) : CDB := { d with raw := { d.raw with closed := true } }

/-- A fresh MerkleDB over an open, empty byte store. -/
def cdbInit : CDB := { raw := { data := [], closed := false }, valueCache := [] }

/-- The state of the store in the closed-store test: write `1 ↦ 1` and
`2 ↦ 2`, delete `2` (leaving a cached tombstone), then close the byte
store. -/
def cdbDemo : CDB :=
  match cdbBatchWrite cdbInit [⟨[1], [1], false⟩, ⟨[2], [2], false⟩] with
  | .ok d1 =>
    match cdbBatchWrite d1 [⟨[2], [], true⟩] with
    | .ok d2 => closeRaw d2
    | .error _ => closeRaw d1
  | .error _ => closeRaw cdbInit

/-- The caller-visible heap of byte slices: each cell is one slice. -/
abbrev Heap := List MVal

/-- Read a heap cell. -/
def hread (h : Heap) (r : Nat) : MVal := (h[r]?).getD []

/-- Mutate one byte of the slice held in a heap cell. -/
def hwrite (h : Heap) (r i b : Nat) : Heap := h.set r ((hread h r).set i b)

/-- The store's own cells: a map from keys to heap cell indices. -/
structure VStore where
  refs : KList Nat

/-- `Put` with a defensive copy: the value is written into a fresh cell. -/
def storePut (st : VStore) (h : Heap) (p : List Nat) (v : MVal) : VStore × Heap :=
  ({ refs := upsertK st.refs p h.length }, h ++ [v])

/-- `Get` with a defensive copy: a hit allocates a fresh cell holding a
copy of the stored bytes and returns its index, never the store's cell. -/
def storeGet (st : VStore) (h : Heap) (p : List Nat) : Heap × Except DBErr Nat :=
  match lookupK st.refs p with
  | some r => (h ++ [hread h r], .ok h.length)
  | none => (h, .error .notFound)

/-- Heap well-formedness: every cell the store references exists. -/
def heapWF (st : VStore) (h : Heap) : Prop := ∀ pr ∈ st.refs, pr.2 < h.length

instance (st : VStore) (h : Heap) : Decidable (heapWF st h) := by
  unfold heapWF; infer_instance

/-- `trieView.invalidate`: mark a view invalid in place. -/
def invalidateView (s : DBState) (id : Nat) : DBState :=
  { s with views := s.views.map (fun iv =>
      if iv.1 = id then (iv.1, { iv.2 with invalidated := true }) else iv) }

theorem commitToDB_ok_eq {s : DBState} {id : Nat} {vd : ViewData}
    (hv : lookupView s id = some vd) (hinv : vd.invalidated = false) :
    commitToDB s id =
      ({ s with
          views := s.views.map (fun iv =>
            (iv.1, commitViewMap id vd.childViews
              (descClosure s s.views.length
                (s.childViews.filter (fun i => !(i == bottomAncestor s s.views.length id))))
              iv.1 iv.2)),
          entries := applyChanges s.entries (flattenChanges s s.views.length id),
          childViews := id :: vd.childViews,
          history := ((applyChanges s.entries (flattenChanges s s.views.length id))
            :: s.history).take s.histLen },
        none) := by
  unfold commitToDB
  simp only [hv, hinv, Bool.false_eq_true, if_false]

theorem lookupView_commitToDB {s : DBState} {id : Nat} {vd : ViewData}
    (hv : lookupView s id = some vd) (hinv : vd.invalidated = false) (x : Nat) :
    lookupView (commitToDB s id).1 x =
      (lookupView s x).map (commitViewMap id vd.childViews
        (descClosure s s.views.length
          (s.childViews.filter (fun i => !(i == bottomAncestor s s.views.length id)))) x) := by
  rw [commitToDB_ok_eq hv hinv]
  unfold lookupView
  exact find_fst_map s.views _ x

/-- C1. Root determinism: for any fixed set of key/value pairs (distinct
byte keys), building a view over the same MerkleDB with those pairs as
operations yields the same Merkle root for every permutation of the
insertion order. -/
theorem claim_C1_root_insertion_order (h : List Nat → List Nat) (s : DBState)
    (ops ops' : List BatchOp)
    (hs : ssortedK s.entries)
    (hnd : (ops.map BatchOp.key).Nodup)
    (hb : ∀ op ∈ ops, ∀ x ∈ op.key, x < 256)
    (hperm : ops.Perm ops') :
    viewMerkleRoot h s ops' = viewMerkleRoot h s ops := by
  unfold viewMerkleRoot
  congr 1
  exact (applyChanges_perm_eq hs (hperm.map opChange)
    (batchChanges_keys_nodup ops hnd hb)).symm

/-- C1 witness: a concrete two-operation batch and its transposition give
the same view root over a fresh database. -/
theorem claim_C1_root_insertion_order_witness :
    ssortedK (initDB 300).entries ∧
    (([⟨[1], [5], false⟩, ⟨[2], [6], false⟩] : List BatchOp).map BatchOp.key).Nodup ∧
    ([⟨[1], [5], false⟩, ⟨[2], [6], false⟩] : List BatchOp).Perm
      [⟨[2], [6], false⟩, ⟨[1], [5], false⟩] ∧
    viewMerkleRoot id (initDB 300) [⟨[2], [6], false⟩, ⟨[1], [5], false⟩] =
      viewMerkleRoot id (initDB 300) [⟨[1], [5], false⟩, ⟨[2], [6], false⟩] :=
  ⟨by decide, by decide, by decide,
    claim_C1_root_insertion_order id (initDB 300)
      [⟨[1], [5], false⟩, ⟨[2], [6], false⟩] [⟨[2], [6], false⟩, ⟨[1], [5], false⟩]
      (by decide) (by decide) (by decide) (by decide)⟩

/-- C5. Rebuild equivalence: discarding all materialized nodes and
reconstructing the trie from the byte store's raw pairs in batches of any
(eviction batch) size leaves the Merkle root unchanged. -/
theorem claim_C5_rebuild_equivalence (h : List Nat → List Nat) (s : DBState) (k : Nat)
    (hwf : dbWF s) :
    dbMerkleRoot h (dbRebuild k s) = dbMerkleRoot h s := by
  show merkleRoot h (rebuildE k s.entries) = merkleRoot h s.entries
  rw [rebuildE_eq hwf.1 k]

/-- C5 witness: rebuilding a concrete populated database in batches of
two preserves its root. -/
theorem claim_C5_rebuild_equivalence_witness :
    dbWF ⟨[([1], [1]), ([1, 2], [2]), ([2], [3])], [], [], [], 300, 0⟩ ∧
    dbMerkleRoot id (dbRebuild 2 ⟨[([1], [1]), ([1, 2], [2]), ([2], [3])], [], [], [], 300, 0⟩) =
      dbMerkleRoot id ⟨[([1], [1]), ([1, 2], [2]), ([2], [3])], [], [], [], 300, 0⟩ :=
  ⟨by decide, claim_C5_rebuild_equivalence id _ 2 (by decide)⟩

/-- C7. Committing an invalidated view fails with the INVALIDATED error
and leaves the MerkleDB state, in particular its Merkle root, unchanged. -/
theorem claim_C7_commit_invalidated (h : List Nat → List Nat) (s : DBState)
    (v : Nat) (vd : ViewData)
    (hv : lookupView s v = some vd) (hinv : vd.invalidated = true) :
    commitToDB s v = (s, some DBErr.invalidated) ∧
    dbMerkleRoot h (commitToDB s v).1 = dbMerkleRoot h s := by
  have hc : commitToDB s v = (s, some DBErr.invalidated) := by
    unfold commitToDB
    simp [hv, hinv]
  exact ⟨hc, by rw [hc]⟩

/-- C7 witness: a freshly created view that is then invalidated cannot be
committed, and the database root is untouched. -/
theorem claim_C7_commit_invalidated_witness :
    lookupView (invalidateView (newView (initDB 300) []).1 0) 0 =
      some ⟨[], ParentRef.db, true, []⟩ ∧
    (commitToDB (invalidateView (newView (initDB 300) []).1 0) 0 =
      (invalidateView (newView (initDB 300) []).1 0, some DBErr.invalidated) ∧
     dbMerkleRoot id (commitToDB (invalidateView (newView (initDB 300) []).1 0) 0).1 =
      dbMerkleRoot id (invalidateView (newView (initDB 300) []).1 0)) :=
  ⟨by decide,
    claim_C7_commit_invalidated id _ 0 ⟨[], ParentRef.db, true, []⟩ (by decide) (by decide)⟩

/-- C9. Requesting a change proof between identical roots fails with the
SAME_ROOT error, even when the root is retained in history; no proof is
produced. -/
theorem claim_C9_change_proof_same_root (h : List Nat → List Nat) (s : DBState)
    (root : List Nat) (st en : Option MPath) (n : Nat)
    (hr : hasRoot h s root = true) :
    getChangeProof h s root root st en n = Except.error DBErr.sameRoot := by
  unfold getChangeProof
  rw [if_pos rfl]

/-- C9 witness: a database retaining one committed content rejects a
change proof from that root to itself. -/
theorem claim_C9_change_proof_same_root_witness :
    hasRoot id ⟨[([1], [1])], [], [], [[([1], [1])]], 300, 0⟩
      (merkleRoot id [([1], [1])]) = true ∧
    getChangeProof id ⟨[([1], [1])], [], [], [[([1], [1])]], 300, 0⟩
      (merkleRoot id [([1], [1])]) (merkleRoot id [([1], [1])]) none none 100 =
      Except.error DBErr.sameRoot :=
  ⟨by decide,
    claim_C9_change_proof_same_root id _ (merkleRoot id [([1], [1])]) none none 100 (by decide)⟩

/-- C2. Sibling invalidation on commit: after a tracked view `V1` of the
database is committed, every other tracked child `V2` of the database is
invalidated while the committed view itself is not. The forest hypotheses
state that `V2` is a sibling (not a child of `V1`) and that `V1` is not a
descendant of any of its siblings. -/
theorem claim_C2_sibling_invalidation (s : DBState) (v1 v2 : Nat) (vd1 vd2 : ViewData)
    (h1 : lookupView s v1 = some vd1)
    (hp1 : vd1.parent = ParentRef.db)
    (hi1 : vd1.invalidated = false)
    (h2 : lookupView s v2 = some vd2)
    (hm2 : v2 ∈ s.childViews)
    (hne : v2 ≠ v1)
    (hnc : v2 ∉ vd1.childViews)
    (hforest : v1 ∉ descClosure s s.views.length
      (s.childViews.filter (fun i => !(i == v1)))) :
    (commitToDB s v1).2 = none ∧
    (lookupView (commitToDB s v1).1 v2).map ViewData.invalidated = some true ∧
    (lookupView (commitToDB s v1).1 v1).map ViewData.invalidated = some false := by
  have hpos := views_length_pos h1
  obtain ⟨k, hk⟩ := Nat.exists_eq_succ_of_ne_zero (Nat.pos_iff_ne_zero.mp hpos)
  have hba : bottomAncestor s s.views.length v1 = v1 := by
    rw [hk]; exact bottomAncestor_direct h1 hp1
  refine ⟨by rw [commitToDB_ok_eq h1 hi1], ?_, ?_⟩
  · rw [lookupView_commitToDB h1 hi1 v2, h2]
    have hv2 : v2 ∈ descClosure s s.views.length
        (s.childViews.filter (fun i => !(i == bottomAncestor s s.views.length v1))) := by
      rw [hba]
      exact mem_descClosure_self (List.mem_filter.mpr ⟨hm2, by simp [hne]⟩)
    simp [commitViewMap, hv2, hne, hnc]
  · rw [lookupView_commitToDB h1 hi1 v1, h1]
    have hv1 : v1 ∉ descClosure s s.views.length
        (s.childViews.filter (fun i => !(i == bottomAncestor s s.views.length v1))) := by
      rw [hba]; exact hforest
    simp [commitViewMap, hv1, hi1]

/-- The S5 world: viewA (id 0) staged over a fresh database with one put,
plus empty sibling views B (id 1) and C (id 2). -/
def s5World : DBState :=
  (newView (newView (newView (initDB 300) [⟨[1], [1], false⟩]).1 []).1 []).1

/-- C2 witness: committing viewA of the S5 world invalidates its sibling
viewB and leaves viewA valid. -/
theorem claim_C2_sibling_invalidation_witness :
    lookupView s5World 0 = some ⟨[⟨[1], [1], false⟩], ParentRef.db, false, []⟩ ∧
    1 ∈ s5World.childViews ∧
    ((commitToDB s5World 0).2 = none ∧
     (lookupView (commitToDB s5World 0).1 1).map ViewData.invalidated = some true ∧
     (lookupView (commitToDB s5World 0).1 0).map ViewData.invalidated = some false) :=
  ⟨by decide, by decide,
    claim_C2_sibling_invalidation s5World 0 1
      ⟨[⟨[1], [1], false⟩], ParentRef.db, false, []⟩ ⟨[], ParentRef.db, false, []⟩
      (by decide) (by decide) (by decide) (by decide) (by decide) (by decide)
      (by decide) (by decide)⟩

/-- C10. Child reparenting on commit: committing a view `V1` that has a
child `V3` does not invalidate `V3`; instead `V3`'s parent becomes the
database, `V3` joins the database's tracked children, and reads through
`V3` still succeed. -/
theorem claim_C10_child_reparenting (s : DBState) (v1 v3 : Nat) (vd1 vd3 : ViewData)
    (h1 : lookupView s v1 = some vd1)
    (hp1 : vd1.parent = ParentRef.db)
    (hi1 : vd1.invalidated = false)
    (h3 : lookupView s v3 = some vd3)
    (hi3 : vd3.invalidated = false)
    (hchild : v3 ∈ vd1.childViews)
    (hne : v3 ≠ v1)
    (hforest : v3 ∉ descClosure s s.views.length
      (s.childViews.filter (fun i => !(i == v1)))) :
    (commitToDB s v1).2 = none ∧
    (lookupView (commitToDB s v1).1 v3).map ViewData.invalidated = some false ∧
    (lookupView (commitToDB s v1).1 v3).map ViewData.parent = some ParentRef.db ∧
    v3 ∈ (commitToDB s v1).1.childViews ∧
    (∀ p, ∃ r, viewGet (commitToDB s v1).1 1 v3 p = Except.ok r) := by
  have hpos := views_length_pos h1
  obtain ⟨k, hk⟩ := Nat.exists_eq_succ_of_ne_zero (Nat.pos_iff_ne_zero.mp hpos)
  have hba : bottomAncestor s s.views.length v1 = v1 := by
    rw [hk]; exact bottomAncestor_direct h1 hp1
  have hv3 : v3 ∉ descClosure s s.views.length
      (s.childViews.filter (fun i => !(i == bottomAncestor s s.views.length v1))) := by
    rw [hba]; exact hforest
  have hlook : lookupView (commitToDB s v1).1 v3 =
      some { vd3 with parent := ParentRef.db } := by
    rw [lookupView_commitToDB h1 hi1 v3, h3]
    simp [commitViewMap, hv3, hne, hchild]
  refine ⟨by rw [commitToDB_ok_eq h1 hi1], by rw [hlook]; simp [hi3],
    by rw [hlook]; rfl, ?_, ?_⟩
  · rw [commitToDB_ok_eq h1 hi1]
    exact List.mem_cons_of_mem _ hchild
  · intro p
    unfold viewGet
    rw [hlook]
    simp only [hi3, Bool.false_eq_true, if_false]
    cases hlc : lastChange (batchChanges vd3.changes) p with
    | some r => exact ⟨r, rfl⟩
    | none => exact ⟨lookupK (commitToDB s v1).1.entries p, rfl⟩

/-- The C10 world: view1 (id 0) staged over a fresh database with one put,
a sibling view2 (id 1), and view3 (id 2) created as a child of view1. -/
def c10World : DBState :=
  (newChildView (newView (newView (initDB 300) [⟨[1], [1], false⟩]).1 []).1 0 []).1

/-- C10 witness: committing view1 of the C10 world keeps its child view3
valid, reparents it to the database, tracks it, and reads through it
succeed. -/
theorem claim_C10_child_reparenting_witness :
    lookupView c10World 0 = some ⟨[⟨[1], [1], false⟩], ParentRef.db, false, [2]⟩ ∧
    lookupView c10World 2 = some ⟨[], ParentRef.view 0, false, []⟩ ∧
    ((commitToDB c10World 0).2 = none ∧
     (lookupView (commitToDB c10World 0).1 2).map ViewData.invalidated = some false ∧
     (lookupView (commitToDB c10World 0).1 2).map ViewData.parent = some ParentRef.db ∧
     2 ∈ (commitToDB c10World 0).1.childViews ∧
     (∀ p, ∃ r, viewGet (commitToDB c10World 0).1 1 2 p = Except.ok r)) :=
  ⟨by decide, by decide,
    claim_C10_child_reparenting c10World 0 2
      ⟨[⟨[1], [1], false⟩], ParentRef.db, false, [2]⟩ ⟨[], ParentRef.view 0, false, []⟩
      (by decide) (by decide) (by decide) (by decide) (by decide) (by decide)
      (by decide) (by decide)⟩

/-- The source content of the C3 counterexample: two keys, one outside
the queried range. -/
def c3cexm : Entries := [([1], [1]), ([2], [2])]

/-- The range proof of the C3 counterexample, taken over `[[1], [1]]`. -/
def c3cexpf : RangeProof := getRangeProofE c3cexm (some [1]) (some [1]) 10

/-- C3 counterexample: a verified range proof over `[start, end]` at root
`R`, applied to a target whose prior contents lie (vacuously) entirely
inside the range, yields a trie whose root differs from `R`, because the
source holds a key outside the range that the proof does not attest. -/
theorem claim_C3_commit_range_proof_counterexample :
    verifyRangeProofE id c3cexpf (some [1]) (some [1]) (merkleRoot id c3cexm) = true ∧
    (∀ kv ∈ ([] : Entries), inRange (some [1]) (some [1]) kv.1 = true) ∧
    merkleRoot id (commitRangeProofE [] (some [1]) c3cexpf) ≠ merkleRoot id c3cexm :=
  ⟨by decide, by decide, by decide⟩

/-- C3 (amended). Applying a range proof generated over `[start, end]`
with limit `n` from a source trie `m` to a target trie `t` makes the
target, within the attested region `[start, hi]` (where `hi` is `end`, or
the last attested key when the proof was clipped), read exactly the
attested pairs — attested pairs become readable and in-region keys absent
from the proof are removed — while keys outside the region are untouched;
and when the proof attests the source's entire content (source keys all in
range, limit not exceeded) and the target's prior contents lie inside the
range, the resulting Merkle root equals the source root `R`. -/
theorem claim_C3_commit_range_proof (h : List Nat → List Nat) (m t : Entries)
    (s e : Option MPath) (n : Nat) (pf : RangeProof)
    (hm : ssortedK m) (ht : ssortedK t) (hn : 0 < n)
    (hpf : pf = getRangeProofE m s e n) :
    (∀ p, inRange s pf.hi p = true →
        lookupK (commitRangeProofE t s pf) p = lookupK pf.kvs p) ∧
    (∀ p, inRange s pf.hi p = false →
        lookupK (commitRangeProofE t s pf) p = lookupK t p) ∧
    ((∀ kv ∈ m, inRange s e kv.1 = true) → (∀ kv ∈ t, inRange s e kv.1 = true) →
      m.length ≤ n →
      merkleRoot h (commitRangeProofE t s pf) = merkleRoot h m) := by
  subst hpf
  refine ⟨fun p hp => commit_lookup_in ht hm s e hn p hp,
          fun p hp => commit_lookup_out ht hm s e hn p hp,
          fun hms hts hlen => by rw [commit_full ht hm s e hn hms hts hlen]⟩

/-- The S3 source content: keys 1, 2, 3 with values 1, 2, 3. -/
def c3srcm : Entries := [([1], [1]), ([2], [2]), ([3], [3])]

/-- The S3 target content: stale values for keys 1, 2, 3 plus the extra
in-range key 2.5 that the proof does not attest. -/
def c3tgt : Entries := [([1], [3]), ([2], [4]), ([2, 5], [5]), ([3], [5])]

/-- C3 witness: the S3 scenario (pre-populated target, proof over the
whole source) satisfies the amended commit semantics, and concretely the
attested key 2 reads the proof's value, key 2.5 is gone, and the roots
agree. -/
theorem claim_C3_commit_range_proof_witness :
    ssortedK c3srcm ∧ ssortedK c3tgt ∧
    ((∀ p, inRange (some [1]) (getRangeProofE c3srcm (some [1]) (some [3]) 10).hi p = true →
        lookupK (commitRangeProofE c3tgt (some [1])
          (getRangeProofE c3srcm (some [1]) (some [3]) 10)) p =
          lookupK (getRangeProofE c3srcm (some [1]) (some [3]) 10).kvs p) ∧
     (∀ p, inRange (some [1]) (getRangeProofE c3srcm (some [1]) (some [3]) 10).hi p = false →
        lookupK (commitRangeProofE c3tgt (some [1])
          (getRangeProofE c3srcm (some [1]) (some [3]) 10)) p = lookupK c3tgt p) ∧
     ((∀ kv ∈ c3srcm, inRange (some [1]) (some [3]) kv.1 = true) →
      (∀ kv ∈ c3tgt, inRange (some [1]) (some [3]) kv.1 = true) →
      c3srcm.length ≤ 10 →
      merkleRoot id (commitRangeProofE c3tgt (some [1])
        (getRangeProofE c3srcm (some [1]) (some [3]) 10)) = merkleRoot id c3srcm)) ∧
    lookupK (commitRangeProofE c3tgt (some [1])
      (getRangeProofE c3srcm (some [1]) (some [3]) 10)) [2] = some [2] ∧
    lookupK (commitRangeProofE c3tgt (some [1])
      (getRangeProofE c3srcm (some [1]) (some [3]) 10)) [2, 5] = none :=
  ⟨by decide, by decide,
    claim_C3_commit_range_proof id c3srcm c3tgt (some [1]) (some [3]) 10 _
      (by decide) (by decide) (by decide) rfl,
    by decide, by decide⟩

/-- C4. Range proof soundness: every proof `GetRangeProofAtRoot` produces
for a retained root `R` over bounds `[s, e]` with limit `N` verifies
against `(s, e, R)`, and carries at most `N` key/value pairs. -/
theorem claim_C4_range_proof_soundness (h : List Nat → List Nat) (s : DBState)
    (root : List Nat) (st en : Option MPath) (n : Nat) (pf : RangeProof)
    (hwf : dbWF s)
    (hok : getRangeProofAtRoot h s root st en n = Except.ok pf) :
    verifyRangeProofE h pf st en root = true ∧ pf.kvs.length ≤ n := by
  unfold getRangeProofAtRoot at hok
  by_cases hn : n = 0
  · rw [if_pos hn] at hok; cases hok
  · rw [if_neg hn] at hok
    cases hca : contentAt h s root with
    | none => rw [hca] at hok; cases hok
    | some m =>
      simp only [hca] at hok
      have hpf : pf = getRangeProofE m st en n := (Except.ok.inj hok).symm
      have hmem : m ∈ s.history := List.mem_of_find?_eq_some hca
      have hm : ssortedK m := hwf.2 m hmem
      have hroot : merkleRoot h m = root := by
        have := List.find?_some hca
        simpa using this
      subst hpf
      exact ⟨hroot ▸ verify_getRangeProofE hm h st en (Nat.pos_of_ne_zero hn),
        getRangeProofE_len m st en n⟩

/-- The database of the C4 witness: one retained content of two keys. -/
def c4db : DBState := ⟨[], [], [], [[([1], [1]), ([2], [2])]], 300, 0⟩

/-- C4 witness: a clipped proof (limit 1 over two keys) served at the
retained root verifies against that root and respects the limit. -/
theorem claim_C4_range_proof_soundness_witness :
    dbWF c4db ∧
    getRangeProofAtRoot id c4db (merkleRoot id [([1], [1]), ([2], [2])]) none none 1 =
      Except.ok (getRangeProofE [([1], [1]), ([2], [2])] none none 1) ∧
    (verifyRangeProofE id (getRangeProofE [([1], [1]), ([2], [2])] none none 1)
        none none (merkleRoot id [([1], [1]), ([2], [2])]) = true ∧
      (getRangeProofE [([1], [1]), ([2], [2])] none none 1).kvs.length ≤ 1) :=
  ⟨by decide, rfl,
    claim_C4_range_proof_soundness id c4db (merkleRoot id [([1], [1]), ([2], [2])])
      none none 1 _ (by decide) rfl⟩

/-- C6. Value safety: `Get` returns a fresh copy of the stored bytes;
mutating the returned slice leaves the store's own cell untouched, and a
subsequent `Get` for the same key returns the original bytes. -/
theorem claim_C6_value_safety (st : VStore) (h : Heap) (p : List Nat) (r i b : Nat)
    (hwf : heapWF st h) (hr : lookupK st.refs p = some r) :
    (storeGet st h p).2 = Except.ok h.length ∧
    hread (hwrite (storeGet st h p).1 h.length i b) r = hread h r ∧
    (storeGet st (hwrite (storeGet st h p).1 h.length i b) p).2 =
      Except.ok (hwrite (storeGet st h p).1 h.length i b).length ∧
    hread (storeGet st (hwrite (storeGet st h p).1 h.length i b) p).1
      (hwrite (storeGet st h p).1 h.length i b).length = hread h r := by
  have hrlt : r < h.length := hwf (p, r) (lookupK_mem hr)
  have hget1 : storeGet st h p = (h ++ [hread h r], Except.ok h.length) := by
    unfold storeGet
    rw [hr]
  have hmut : hread (hwrite (storeGet st h p).1 h.length i b) r = hread h r := by
    rw [hget1]
    unfold hwrite hread
    rw [List.getElem?_set_ne (by omega)]
    rw [List.getElem?_append_left hrlt]
  have hget2 : storeGet st (hwrite (storeGet st h p).1 h.length i b) p =
      ((hwrite (storeGet st h p).1 h.length i b) ++
        [hread (hwrite (storeGet st h p).1 h.length i b) r],
       Except.ok (hwrite (storeGet st h p).1 h.length i b).length) := by
    unfold storeGet
    rw [hr]
  refine ⟨by rw [hget1], hmut, by rw [hget2], ?_⟩
  rw [hget2]
  show hread ((hwrite (storeGet st h p).1 h.length i b) ++
    [hread (hwrite (storeGet st h p).1 h.length i b) r])
    (hwrite (storeGet st h p).1 h.length i b).length = hread h r
  unfold hread
  rw [List.getElem?_concat_length]
  exact hmut

/-- C6 witness: the S6 scenario — store `{0} ↦ {0,1,2}`, read it, flip the
first byte of the returned slice, and the store still holds and returns
`{0,1,2}`. -/
theorem claim_C6_value_safety_witness :
    heapWF ⟨[([0], 0)]⟩ [[0, 1, 2]] ∧
    lookupK (⟨[([0], 0)]⟩ : VStore).refs [0] = some 0 ∧
    ((storeGet ⟨[([0], 0)]⟩ [[0, 1, 2]] [0]).2 = Except.ok 1 ∧
     hread (hwrite (storeGet ⟨[([0], 0)]⟩ [[0, 1, 2]] [0]).1 1 0 1) 0 = hread [[0, 1, 2]] 0 ∧
     (storeGet ⟨[([0], 0)]⟩ (hwrite (storeGet ⟨[([0], 0)]⟩ [[0, 1, 2]] [0]).1 1 0 1) [0]).2 =
       Except.ok (hwrite (storeGet ⟨[([0], 0)]⟩ [[0, 1, 2]] [0]).1 1 0 1).length ∧
     hread (storeGet ⟨[([0], 0)]⟩ (hwrite (storeGet ⟨[([0], 0)]⟩ [[0, 1, 2]] [0]).1 1 0 1) [0]).1
       (hwrite (storeGet ⟨[([0], 0)]⟩ [[0, 1, 2]] [0]).1 1 0 1).length = hread [[0, 1, 2]] 0) ∧
    hread [[0, 1, 2]] 0 = [0, 1, 2] :=
  ⟨by decide, by decide,
    claim_C6_value_safety ⟨[([0], 0)]⟩ [[0, 1, 2]] [0] 0 0 1 (by decide) (by decide),
    by decide⟩

/-- C8 counterexample: after the byte store underneath `cdbDemo` is
closed, the MerkleDB is not unusable — the cached key 1 still reads its
value and the tombstoned key 2 still answers NOT_FOUND instead of
CLOSED. -/
theorem claim_C8_closed_store_counterexample :
    cdbDemo.raw.closed = true ∧
    cdbGet cdbDemo [1] = Except.ok [1] ∧
    cdbGet cdbDemo [2] = Except.error DBErr.notFound :=
  ⟨rfl, rfl, rfl⟩

/-- C8 (amended). Once the underlying byte store is closed, every
MerkleDB operation that must touch the byte store fails with the CLOSED
error kind — in particular a read missing the value cache, and any batch
write — while reads satisfiable from the value cache (cached values and
cached not-found tombstones) still succeed. -/
theorem claim_C8_closed_store (d : CDB) (k : List Nat) (ops : List BatchOp)
    (hc : d.raw.closed = true) :
    (lookupK d.valueCache k = none → cdbGet d k = Except.error DBErr.closed) ∧
    cdbBatchWrite d ops = Except.error DBErr.closed := by
  constructor
  · intro hmiss
    unfold cdbGet
    rw [hmiss]
    show rawGet d.raw k = Except.error DBErr.closed
    unfold rawGet
    rw [if_pos hc]
  · unfold cdbBatchWrite
    rw [if_pos hc]

/-- C8 witness: on the closed demo store, an uncached key fails with
CLOSED and a batch write fails with CLOSED. -/
theorem claim_C8_closed_store_witness :
    cdbDemo.raw.closed = true ∧
    lookupK cdbDemo.valueCache [3] = none ∧
    (cdbGet cdbDemo [3] = Except.error DBErr.closed ∧
     cdbBatchWrite cdbDemo [⟨[4], [4], false⟩] = Except.error DBErr.closed) :=
  ⟨rfl, rfl,
    (claim_C8_closed_store cdbDemo [3] [⟨[4], [4], false⟩] rfl).1 rfl,
    (claim_C8_closed_store cdbDemo [3] [⟨[4], [4], false⟩] rfl).2⟩
